import Mathlib

/-!
Verification of the buddhabrot renderer (src/buddhabrot.cpp) against its
natural-language specification.

The numeric state of the program is embedded shallowly:

* complex `float` values (`pt = std::complex<float>`) become pairs of
  rationals (`Pt`), with the square-and-add recurrence and the squared
  magnitude written out exactly as the source computes them;
* the machine integers (`idx = std::ptrdiff_t`) become `Int`;
* the escape-time inner loop, the adaptive trial loop, the histogram
  accumulation loop, the row loop of `render`, and the min/max folds of
  `write` are written as structurally recursive functions on a fuel
  argument that mirrors the loop counter, so that every definition is
  executable and kernel-reducible;
* the random seed stream of a cell (`random_pt`) is an oracle
  `seeds : Nat -> Pt`; for the claims that only depend on the per-trial
  escape times the oracle is the escape-time stream `esc : Nat -> Nat`
  (the inner loop always yields a nonnegative `escaped_time`, so `Nat`).

The only place the source computes something with no exact rational
counterpart is `std::sqrt` in `write`; it is modelled by `Real.sqrt`.
-/

set_option maxRecDepth 20000

/-- A complex value, as the source's `pt = std::complex<float>` (real and
imaginary parts), embedded with exact rational coordinates. -/
structure Pt where
  re : ℚ
  im : ℚ
deriving DecidableEq

/-- Complex multiplication, as `std::complex` `operator*`. -/
def pmul (a b : Pt) : Pt :=
  ⟨a.re * b.re - a.im * b.im, a.re * b.im + a.im * b.re⟩

/-- Complex addition, as `std::complex` `operator+`. -/
def padd (a b : Pt) : Pt :=
  ⟨a.re + b.re, a.im + b.im⟩

/-- Squared magnitude, as `std::norm(z)` in src/buddhabrot.cpp:95. -/
def norm2 (z : Pt) : ℚ := z.re * z.re + z.im * z.im

/-- The zero point `pt z(0, 0)` of src/buddhabrot.cpp:90. -/
def pz : Pt := ⟨0, 0⟩

/-- `escape_radius2 = 8.0` of src/buddhabrot.cpp:16. -/
def escape_radius2 : ℚ := 8

/-- The escape-time inner loop of `render_region` (src/buddhabrot.cpp:92-99):
`for (i = 0; i < iterations; i++) { z = z*z + c; buf[trial][i] = z;`
`if (norm(z) > escape_radius2) { escaped_time = i; break; } }`.
The first component is `escaped_time` (0 when the loop runs to the end
without the magnitude test firing), the second is the list of points the
loop stored into `buf[trial]`, in order.  `fuel` counts the remaining
iterations (`iterations - i`), so the guard `i < iterations` is `0 < fuel`. -/
def escLoopGo (c : Pt) : ℕ → ℕ → Pt → ℕ × List Pt
  | 0, _, _ => (0, [])
  | fuel + 1, i, z =>
    let z2 := padd (pmul z z) c
    if escape_radius2 < norm2 z2 then (i, [z2])
    else
      let r := escLoopGo c fuel (i + 1) z2
      (r.1, z2 :: r.2)

/-- `escaped_time` of one trial run from `z = 0` with cap `it`. -/
def escapeTime (it : ℕ) (c : Pt) : ℕ := (escLoopGo c it 0 pz).1

/-- The trajectory prefix a trial contributes to the histogram:
the stored points at positions `[0, buflen[trial])` with
`buflen[trial] = escaped_time` (src/buddhabrot.cpp:116,121). -/
def trialPts (it : ℕ) (c : Pt) : List Pt :=
  (escLoopGo c it 0 pz).2.take (escLoopGo c it 0 pz).1

/-- The mathematical iterates of `z <- z^2 + c` from `z_0 = 0`, used to state
what the inner loop computes: at loop index `i` the tested value is
`zIter c (i+1)`. -/
def zIter (c : Pt) : ℕ → Pt
  | 0 => pz
  | n + 1 => padd (pmul (zIter c n) (zIter c n)) c

lemma escLoopGo_no_escape (c : Pt) :
    ∀ fuel i, (∀ j, i ≤ j → j < i + fuel → ¬ escape_radius2 < norm2 (zIter c (j + 1))) →
      (escLoopGo c fuel i (zIter c i)).1 = 0 := by
  intro fuel
  induction fuel with
  | zero => intro i _; simp [escLoopGo]
  | succ n ih =>
    intro i h
    have hz2 : padd (pmul (zIter c i) (zIter c i)) c = zIter c (i + 1) := rfl
    have hni : ¬ escape_radius2 < norm2 (zIter c (i + 1)) := h i le_rfl (by omega)
    simp only [escLoopGo, hz2, hni, if_false]
    exact ih (i + 1) (fun j hj hj2 => h j (by omega) (by omega))

lemma escLoopGo_escape (c : Pt) :
    ∀ fuel i k, i ≤ k → k < i + fuel → escape_radius2 < norm2 (zIter c (k + 1)) →
      (∀ j, i ≤ j → j < k → ¬ escape_radius2 < norm2 (zIter c (j + 1))) →
      (escLoopGo c fuel i (zIter c i)).1 = k := by
  intro fuel
  induction fuel with
  | zero => intro i k h1 h2; omega
  | succ n ih =>
    intro i k h1 h2 h3 h4
    have hz2 : padd (pmul (zIter c i) (zIter c i)) c = zIter c (i + 1) := rfl
    rcases Nat.eq_or_lt_of_le h1 with heq | hlt
    · subst heq
      simp only [escLoopGo, hz2, h3, if_true]
    · have hni : ¬ escape_radius2 < norm2 (zIter c (i + 1)) := h4 i le_rfl hlt
      simp only [escLoopGo, hz2, hni, if_false]
      exact ih (i + 1) k hlt (by omega) h3 (fun j hj hj2 => h4 j (by omega) hj2)

lemma zIter_zero_eq (c : Pt) : zIter c 0 = pz := rfl

/-- C2, counterexample: for the seed `c = 4 + 4i` (squared magnitude 32 > 8)
and cap 1, the very first iterate already exceeds the escape radius, yet the
run reports `escaped_time = 0` — the value the claim reserves exclusively for
non-escaping runs. -/
theorem C2_cex :
    escapeTime 1 ⟨4, 4⟩ = 0 ∧ escape_radius2 < norm2 (zIter ⟨4, 4⟩ 1) := by
  constructor
  · norm_num [escapeTime, escLoopGo, pmul, padd, norm2, pz, escape_radius2]
  · norm_num [zIter, pmul, padd, norm2, pz, escape_radius2]

/-- C2, amended: for every seed and every cap at least 1, when the squared
magnitude test first succeeds at loop index `i` the run stops and reports
`escaped_time = i`; consequently `escaped_time = 0` holds iff either no
tested iterate exceeded the squared radius 8 within the cap, or the very
first tested iterate `z_1 = c` already exceeded it (first success at index
0) — so 0 is a reserved non-escape sentinel only away from that collision. -/
theorem C2_amended (it : ℕ) (c : Pt) (hit : 1 ≤ it) :
    (escapeTime it c = 0 ↔
      ((∀ i, i < it → ¬ escape_radius2 < norm2 (zIter c (i + 1))) ∨
        escape_radius2 < norm2 (zIter c 1))) ∧
    (∀ i, i < it → escape_radius2 < norm2 (zIter c (i + 1)) →
      (∀ j, j < i → ¬ escape_radius2 < norm2 (zIter c (j + 1))) →
      escapeTime it c = i) := by
  have hrun : ∀ k, k < it → escape_radius2 < norm2 (zIter c (k + 1)) →
      (∀ j, j < k → ¬ escape_radius2 < norm2 (zIter c (j + 1))) →
      escapeTime it c = k := by
    intro k hk h1 h2
    have := escLoopGo_escape c it 0 k (Nat.zero_le k) (by omega) h1
      (fun j hj hj2 => h2 j hj2)
    simpa [escapeTime, zIter_zero_eq] using this
  refine ⟨⟨?_, ?_⟩, hrun⟩
  · intro h0
    by_cases hall : ∀ i, i < it → ¬ escape_radius2 < norm2 (zIter c (i + 1))
    · exact Or.inl hall
    · push_neg at hall
      obtain ⟨i, hi, hesc⟩ := hall
      have hex : ∃ i, i < it ∧ escape_radius2 < norm2 (zIter c (i + 1)) := ⟨i, hi, hesc⟩
      classical
      have hfind := Nat.find_spec hex
      have hmin : ∀ j, j < Nat.find hex → ¬ escape_radius2 < norm2 (zIter c (j + 1)) := by
        intro j hj
        intro hcon
        have hjlt : j < it := lt_trans hj hfind.1 |>.trans_le le_rfl
        exact Nat.find_min hex hj ⟨by omega, hcon⟩
      have := hrun (Nat.find hex) hfind.1 hfind.2 hmin
      right
      have hf0 : Nat.find hex = 0 := by omega
      have := hfind.2
      rw [hf0] at this
      simpa using this
  · rintro (hall | hfirst)
    · have := escLoopGo_no_escape c it 0 (fun j hj hj2 => hall j (by omega))
      simpa [escapeTime, zIter_zero_eq] using this
    · exact hrun 0 (by omega) hfirst (fun j hj => absurd hj (Nat.not_lt_zero j))

/-- C2, witness: the amended theorem applied at cap 3 and seed `c = 2`
(which escapes at loop index 1: `z_1 = 2`, `z_2 = 6`). -/
theorem C2_witness :
    1 ≤ 3 ∧
    ((escapeTime 3 ⟨2, 0⟩ = 0 ↔
      ((∀ i, i < 3 → ¬ escape_radius2 < norm2 (zIter ⟨2, 0⟩ (i + 1))) ∨
        escape_radius2 < norm2 (zIter ⟨2, 0⟩ 1))) ∧
    (∀ i, i < 3 → escape_radius2 < norm2 (zIter ⟨2, 0⟩ (i + 1)) →
      (∀ j, j < i → ¬ escape_radius2 < norm2 (zIter ⟨2, 0⟩ (j + 1))) →
      escapeTime 3 ⟨2, 0⟩ = i)) :=
  ⟨by norm_num, C2_amended 3 ⟨2, 0⟩ (by norm_num)⟩

/-! ## The adaptive trial loop of render_region (src/buddhabrot.cpp:86-117)

The loop-carried variables are `samples` (the required trial count, starting
at 5), `max_path` (starting at the sentinel -1) and the loop counter `trial`.
Each executed trial consumes the next escape time from the oracle
`esc : Nat -> Nat`; in `renderRegion` below the oracle is instantiated with
the actual inner-loop escape times of the drawn seeds. -/

/-- The loop-carried state of the trial loop: `samples`, `max_path`, `trial`
(all of C++ type `idx`, so `Int`). -/
structure LoopState where
  samples : ℤ
  maxPath : ℤ
  trial : ℤ
deriving DecidableEq

/-- The state at loop entry: `samples = 5`, `max_path = -1`, `trial = 0`
(src/buddhabrot.cpp:86-88). -/
def initState : LoopState := ⟨5, -1, 0⟩

/-- The importance update (src/buddhabrot.cpp:102-107): if the trial's
`escaped_time` exceeds `max_path`, record it and raise `samples` to
`max(samples, min(max_samples, 5 + 2 * max_path * max_path))` using the
just-updated `max_path`. -/
def importanceStep (ms : ℤ) (e : ℕ) (s : LoopState) : LoopState :=
  if s.maxPath < (e : ℤ) then
    { samples := max s.samples (min ms (5 + 2 * (e : ℤ) * (e : ℤ))),
      maxPath := (e : ℤ), trial := s.trial }
  else s

/-- The boundary-straddle escalation (src/buddhabrot.cpp:111-114): if
`(escaped_time == 0 && max_path > 0) || (escaped_time != 0 && max_path == -1)`
then `samples = max_samples`.  It runs after the importance update, so it
reads the updated `max_path`. -/
def straddleStep (ms : ℤ) (e : ℕ) (s : LoopState) : LoopState :=
  if ((e : ℤ) = 0 ∧ 0 < s.maxPath) ∨ ((e : ℤ) ≠ 0 ∧ s.maxPath = -1) then
    { s with samples := ms }
  else s

/-- One full iteration of the trial loop body on the loop-carried state:
importance update, then straddle check, then `trial++`. -/
def cellStep (ms : ℤ) (e : ℕ) (s : LoopState) : LoopState :=
  let s1 := importanceStep ms e s
  let s2 := straddleStep ms e s1
  { s2 with trial := s2.trial + 1 }

/-- The state of the trial loop after `n` evaluation steps of
`for (trial = 0; trial < samples; trial++)`: while the guard holds the body
runs on the next oracle escape time, once it fails the state is frozen. -/
def cellTrace (ms : ℤ) (esc : ℕ → ℕ) : ℕ → LoopState
  | 0 => initState
  | n + 1 =>
    let s := cellTrace ms esc n
    if s.trial < s.samples then cellStep ms (esc s.trial.toNat) s else s

/-- An upper bound on the number of iterations the loop can perform:
`samples` never exceeds `max 5 ms` (proved below), so this much fuel always
reaches the fixed point. -/
def loopFuel (ms : ℤ) : ℕ := (max 5 ms).toNat

/-- The state in which the trial loop terminates. -/
def runLoop (ms : ℤ) (esc : ℕ → ℕ) : LoopState := cellTrace ms esc (loopFuel ms)

lemma cellStep_trial (ms : ℤ) (e : ℕ) (s : LoopState) :
    (cellStep ms e s).trial = s.trial + 1 := by
  simp only [cellStep, straddleStep, importanceStep]
  split <;> split <;> rfl

lemma cellStep_maxPath (ms : ℤ) (e : ℕ) (s : LoopState) :
    (cellStep ms e s).maxPath = max s.maxPath (e : ℤ) := by
  simp only [cellStep, straddleStep, importanceStep]
  split <;> split <;> simp_all <;> omega

lemma cellStep_samples_le (ms : ℤ) (e : ℕ) (s : LoopState)
    (h : s.samples ≤ max 5 ms) : (cellStep ms e s).samples ≤ max 5 ms := by
  simp only [cellStep, straddleStep, importanceStep]
  split <;> split <;> simp_all <;> omega

lemma cellStep_samples_ms (ms : ℤ) (e : ℕ) (s : LoopState)
    (h : s.samples = ms) : (cellStep ms e s).samples = ms := by
  simp only [cellStep, straddleStep, importanceStep]
  split <;> split <;> simp_all <;> omega

lemma cellStep_samples_mono (ms : ℤ) (e : ℕ) (s : LoopState)
    (h : s.samples ≤ ms) : s.samples ≤ (cellStep ms e s).samples := by
  simp only [cellStep, straddleStep, importanceStep]
  split <;> split <;> simp_all <;> omega

lemma cellStep_samples_inv5 (ms : ℤ) (e : ℕ) (s : LoopState) (h5 : 5 ≤ ms)
    (h : 5 ≤ s.samples ∧ s.samples ≤ ms) :
    5 ≤ (cellStep ms e s).samples ∧ (cellStep ms e s).samples ≤ ms := by
  simp only [cellStep, straddleStep, importanceStep]
  split <;> split <;> simp_all <;> omega

lemma trace_samples_le (ms : ℤ) (esc : ℕ → ℕ) :
    ∀ n, (cellTrace ms esc n).samples ≤ max 5 ms := by
  intro n
  induction n with
  | zero => simp [cellTrace, initState]
  | succ n ih =>
    simp only [cellTrace]
    split
    · exact cellStep_samples_le _ _ _ ih
    · exact ih

lemma trace_trial_le (ms : ℤ) (esc : ℕ → ℕ) :
    ∀ n, 0 ≤ (cellTrace ms esc n).trial ∧ (cellTrace ms esc n).trial ≤ (n : ℤ) := by
  intro n
  induction n with
  | zero => simp [cellTrace, initState]
  | succ n ih =>
    simp only [cellTrace]
    split
    · rw [cellStep_trial]; push_cast; omega
    · push_cast; omega

lemma trace_trial_run (ms : ℤ) (esc : ℕ → ℕ) :
    ∀ n, (cellTrace ms esc n).trial < (cellTrace ms esc n).samples →
      (cellTrace ms esc n).trial = (n : ℤ) := by
  intro n
  induction n with
  | zero => intro _; rfl
  | succ n ih =>
    intro h
    simp only [cellTrace]
    by_cases hr : (cellTrace ms esc n).trial < (cellTrace ms esc n).samples
    · rw [if_pos hr, cellStep_trial, ih hr]; push_cast; ring
    · rw [if_neg hr]
      simp only [cellTrace, if_neg hr] at h
      exact absurd h hr

lemma trace_stable (ms : ℤ) (esc : ℕ → ℕ) (n : ℕ)
    (h : ¬ (cellTrace ms esc n).trial < (cellTrace ms esc n).samples) :
    ∀ m, n ≤ m → cellTrace ms esc m = cellTrace ms esc n := by
  intro m hm
  induction m with
  | zero =>
    have : n = 0 := Nat.le_zero.mp hm
    simp [this]
  | succ m ih =>
    rcases Nat.lt_or_ge n (m + 1) with hlt | hge
    · have hnm : n ≤ m := by omega
      have heq := ih hnm
      simp only [cellTrace, heq, if_neg h]
    · have : n = m + 1 := by omega
      simp [this]

lemma trace_trial_mono (ms : ℤ) (esc : ℕ → ℕ) :
    ∀ a b, a ≤ b → (cellTrace ms esc a).trial ≤ (cellTrace ms esc b).trial := by
  intro a b hab
  induction b with
  | zero =>
    have : a = 0 := Nat.le_zero.mp hab
    simp [this]
  | succ b ih =>
    rcases Nat.lt_or_ge a (b + 1) with hlt | hge
    · have hab2 : a ≤ b := by omega
      refine le_trans (ih hab2) ?_
      simp only [cellTrace]
      split
      · rw [cellStep_trial]; omega
      · exact le_rfl
    · have : a = b + 1 := by omega
      simp [this]

lemma runLoop_stopped (ms : ℤ) (esc : ℕ → ℕ) :
    ¬ (runLoop ms esc).trial < (runLoop ms esc).samples := by
  intro h
  have h1 := trace_trial_run ms esc (loopFuel ms) h
  have h2 := trace_samples_le ms esc (loopFuel ms)
  have h3 : ((loopFuel ms : ℤ)) = max 5 ms := by
    have : (0 : ℤ) ≤ max 5 ms := by omega
    simp [loopFuel, Int.toNat_of_nonneg this]
  simp only [runLoop] at h h1 h2
  omega

lemma trace_final (ms : ℤ) (esc : ℕ → ℕ) :
    ∀ n, loopFuel ms ≤ n → cellTrace ms esc n = runLoop ms esc := by
  intro n hn
  exact trace_stable ms esc (loopFuel ms) (runLoop_stopped ms esc) n hn

lemma trace_maxPath_ge (ms : ℤ) (esc : ℕ → ℕ) :
    ∀ (n k : ℕ), ((k : ℤ)) < (cellTrace ms esc n).trial →
      ((esc k : ℤ)) ≤ (cellTrace ms esc n).maxPath := by
  intro n
  induction n with
  | zero =>
    intro k hk
    simp only [cellTrace, initState] at hk
    omega
  | succ n ih =>
    intro k hk
    simp only [cellTrace]
    by_cases hr : (cellTrace ms esc n).trial < (cellTrace ms esc n).samples
    · rw [if_pos hr, cellStep_maxPath]
      simp only [cellTrace, if_pos hr, cellStep_trial] at hk
      have ht := trace_trial_run ms esc n hr
      rcases Nat.lt_or_ge k n with hkn | hkn
      · have := ih k (by omega)
        omega
      · have hkeq : k = n := by omega
        have htn : (cellTrace ms esc n).trial.toNat = k := by omega
        rw [htn]
        omega
    · rw [if_neg hr]
      simp only [cellTrace, if_neg hr] at hk
      exact ih k hk

lemma trace_samples_ms_sticky (ms : ℤ) (esc : ℕ → ℕ) (n : ℕ)
    (h : (cellTrace ms esc n).samples = ms) :
    ∀ m, n ≤ m → (cellTrace ms esc m).samples = ms := by
  intro m hm
  induction m with
  | zero =>
    have : n = 0 := Nat.le_zero.mp hm
    subst this; exact h
  | succ m ih =>
    rcases Nat.lt_or_ge n (m + 1) with hlt | hge
    · have hnm : n ≤ m := by omega
      have hsm := ih hnm
      simp only [cellTrace]
      split
      · exact cellStep_samples_ms _ _ _ hsm
      · exact hsm
    · have : n = m + 1 := by omega
      subst this; exact h

lemma trace_running_of_lt_final (ms : ℤ) (esc : ℕ → ℕ) (i : ℕ)
    (h : (i : ℤ) < (runLoop ms esc).trial) :
    (cellTrace ms esc i).trial < (cellTrace ms esc i).samples ∧
      (cellTrace ms esc i).trial = (i : ℤ) := by
  have hfin : (runLoop ms esc).trial ≤ ((loopFuel ms : ℤ)) :=
    (trace_trial_le ms esc (loopFuel ms)).2
  have hilt : i < loopFuel ms := by omega
  by_cases hr : (cellTrace ms esc i).trial < (cellTrace ms esc i).samples
  · exact ⟨hr, trace_trial_run ms esc i hr⟩
  · exfalso
    have := trace_stable ms esc i hr (loopFuel ms) (by omega)
    have hle := (trace_trial_le ms esc i).2
    rw [runLoop] at h
    rw [this] at h
    omega

/-! ## Claims C10, C1, C3, C4 about the trial loop -/

/-- Constant escape-time oracle 0: every trial fails to escape. -/
def escZero : ℕ → ℕ := fun _ => 0

/-- Constant escape-time oracle 1: every trial escapes at time 1. -/
def escOne : ℕ → ℕ := fun _ => 1

/-- Oracle for the C1 counterexample: trial 0 does not escape, every later
trial escapes at time 1. -/
def escMix : ℕ → ℕ := fun n => if n = 0 then 0 else 1

/-- Oracle for the C1 witness: trial 0 escapes at time 1, every later trial
fails to escape. -/
def escMixW : ℕ → ℕ := fun n => if n = 0 then 1 else 0

/-- C10: at every evaluation of the boundary-straddle condition — that is,
in any reachable loop state about to run the straddle check, which happens
right after the importance update of the same trial — `max_path` is already
nonnegative, so the disjunct `escaped_time != 0 && max_path == -1` is false
in every reachable state of the loop. -/
theorem C10_invariant (ms : ℤ) (esc : ℕ → ℕ) (n : ℕ)
    (hrun : (cellTrace ms esc n).trial < (cellTrace ms esc n).samples) :
    0 ≤ (importanceStep ms (esc (cellTrace ms esc n).trial.toNat)
          (cellTrace ms esc n)).maxPath ∧
    ¬ (((esc (cellTrace ms esc n).trial.toNat : ℤ)) ≠ 0 ∧
        (importanceStep ms (esc (cellTrace ms esc n).trial.toNat)
          (cellTrace ms esc n)).maxPath = -1) := by
  simp only [importanceStep]
  split
  · constructor
    · positivity
    · rintro ⟨-, hcon⟩
      simp only at hcon
      omega
  · rename_i hle
    constructor
    · omega
    · rintro ⟨hne, hcon⟩
      omega

/-- C10, witness: the invariant applied at the loop entry state of a run
with `max_samples = 64` and the all-zero escape oracle. -/
theorem C10_witness :
    (cellTrace 64 escZero 0).trial < (cellTrace 64 escZero 0).samples ∧
    (0 ≤ (importanceStep 64 (escZero (cellTrace 64 escZero 0).trial.toNat)
          (cellTrace 64 escZero 0)).maxPath ∧
    ¬ (((escZero (cellTrace 64 escZero 0).trial.toNat : ℤ)) ≠ 0 ∧
        (importanceStep 64 (escZero (cellTrace 64 escZero 0).trial.toNat)
          (cellTrace 64 escZero 0)).maxPath = -1)) :=
  ⟨by decide, C10_invariant 64 escZero 0 (by decide)⟩

/-- C1, counterexample: with `max_samples = 64` and the oracle whose trial 0
does not escape while trials 1.. escape at time 1, the loop executes 7
trials — so it executed both a non-escaping trial (trial 0) and escaping
trials (trials 1-6) — yet terminates with `samples = 7`, never having been
raised to `max_samples = 64`.  The order matters: a non-escape that precedes
every escape never fires the straddle escalation, because the importance
update has already moved `max_path` off the -1 sentinel. -/
theorem C1_cex :
    escMix 0 = 0 ∧ escMix 1 = 1 ∧
    (runLoop 64 escMix).trial = 7 ∧
    (runLoop 64 escMix).samples = 7 ∧
    ¬ (runLoop 64 escMix).samples = 64 := by
  refine ⟨by decide, by decide, by decide, by decide, by decide⟩

/-- C1, amended: if some executed trial reports escape time 0 strictly after
an earlier executed trial escaped (non-zero escape time), then the loop
terminates with `samples = max_samples`.  (The converse order — all
non-escaping trials before every escaping one — does not force
`max_samples`; see the counterexample.) -/
theorem C1_amended (ms : ℤ) (esc : ℕ → ℕ) (i j : ℕ) (hji : j < i)
    (hexec : (i : ℤ) < (runLoop ms esc).trial)
    (hesc : esc j ≠ 0) (hnon : esc i = 0) :
    (runLoop ms esc).samples = ms := by
  obtain ⟨hr, ht⟩ := trace_running_of_lt_final ms esc i hexec
  have hj1 : 1 ≤ esc j := Nat.one_le_iff_ne_zero.mpr hesc
  have hmp : 1 ≤ (cellTrace ms esc i).maxPath := by
    have := trace_maxPath_ge ms esc i j (by omega)
    omega
  have hstep : cellTrace ms esc (i + 1) = cellStep ms (esc i) (cellTrace ms esc i) := by
    simp only [cellTrace, if_pos hr]
    have htn : (cellTrace ms esc i).trial.toNat = i := by omega
    rw [htn]
  have hsamp : (cellTrace ms esc (i + 1)).samples = ms := by
    rw [hstep, hnon]
    have h1 : importanceStep ms 0 (cellTrace ms esc i) = cellTrace ms esc i := by
      simp only [importanceStep, Nat.cast_zero]
      rw [if_neg (by omega)]
    have h2 : straddleStep ms 0 (cellTrace ms esc i) =
        { cellTrace ms esc i with samples := ms } := by
      simp only [straddleStep, Nat.cast_zero]
      rw [if_pos (Or.inl ⟨by norm_num, by omega⟩)]
    simp only [cellStep, h1, h2]
  have hfuel : i + 1 ≤ loopFuel ms := by
    have := (trace_trial_le ms esc (loopFuel ms)).2
    simp only [runLoop] at hexec
    omega
  have := trace_samples_ms_sticky ms esc (i + 1) hsamp (loopFuel ms) hfuel
  simpa [runLoop] using this

/-- C1, witness: the amended theorem at `max_samples = 64` with the oracle
whose trial 0 escapes at time 1 and trial 1 does not escape: the loop is
forced to the full 64 trials. -/
theorem C1_witness :
    0 < 1 ∧ (1 : ℤ) < (runLoop 64 escMixW).trial ∧
    escMixW 0 ≠ 0 ∧ escMixW 1 = 0 ∧
    (runLoop 64 escMixW).samples = 64 :=
  ⟨by decide, by decide, by decide, by decide,
    C1_amended 64 escMixW 1 0 (by decide) (by decide) (by decide) (by decide)⟩

lemma trace_inv5 (ms : ℤ) (esc : ℕ → ℕ) (h5 : 5 ≤ ms) :
    ∀ n, 5 ≤ (cellTrace ms esc n).samples ∧ (cellTrace ms esc n).samples ≤ ms := by
  intro n
  induction n with
  | zero => constructor <;> simp [cellTrace, initState] <;> omega
  | succ n ih =>
    simp only [cellTrace]
    split
    · exact cellStep_samples_inv5 ms _ _ h5 ih
    · exact ih

lemma trace_samples_mono (ms : ℤ) (esc : ℕ → ℕ) (h5 : 5 ≤ ms) :
    ∀ n, (cellTrace ms esc n).samples ≤ (cellTrace ms esc (n + 1)).samples := by
  intro n
  simp only [cellTrace]
  split
  · exact cellStep_samples_mono ms _ _ (trace_inv5 ms esc h5 n).2
  · exact le_rfl

lemma trace_trial_le_samples (ms : ℤ) (esc : ℕ → ℕ) (h5 : 5 ≤ ms) :
    ∀ n, (cellTrace ms esc n).trial ≤ (cellTrace ms esc n).samples := by
  intro n
  induction n with
  | zero => simp [cellTrace, initState]
  | succ n ih =>
    have hmono := trace_samples_mono ms esc h5 n
    simp only [cellTrace] at hmono ⊢
    split
    · rename_i hr
      rw [cellStep_trial]
      split at hmono
      · omega
      · omega
    · exact ih

/-- C3, counterexample: with `max_samples = 1` (a positive value the
invocation surface admits) and no trial escaping, the loop still raises
`samples` to 5 at trial 0 and performs 5 iterations, so `samples` exceeds
`maximum_trials` and the loop runs more than `maximum_trials` iterations.
(The violation appears at trial 0, before the out-of-range `buf` accesses
that such a configuration later incurs.) -/
theorem C3_cex :
    (runLoop 1 escZero).samples = 5 ∧
    ¬ (runLoop 1 escZero).samples ≤ 1 ∧
    (runLoop 1 escZero).trial = 5 ∧
    ¬ (runLoop 1 escZero).trial ≤ 1 := by
  refine ⟨by decide, by decide, by decide, by decide⟩

/-- C3, amended: provided `max_samples` is at least the minimum trial count
5, within one cell's run `samples` is monotonically non-decreasing across
trials, never exceeds `max_samples`, and the loop terminates after at most
`max_samples` iterations (the trace is frozen from `loopFuel` steps on). -/
theorem C3_amended (ms : ℤ) (esc : ℕ → ℕ) (h5 : 5 ≤ ms) :
    (∀ n, (cellTrace ms esc n).samples ≤ (cellTrace ms esc (n + 1)).samples) ∧
    (∀ n, (cellTrace ms esc n).samples ≤ ms) ∧
    (runLoop ms esc).trial ≤ ms ∧
    (∀ n, loopFuel ms ≤ n → cellTrace ms esc n = runLoop ms esc) := by
  refine ⟨trace_samples_mono ms esc h5, fun n => (trace_inv5 ms esc h5 n).2, ?_, trace_final ms esc⟩
  have h1 := trace_trial_le_samples ms esc h5 (loopFuel ms)
  have h2 := (trace_inv5 ms esc h5 (loopFuel ms)).2
  simp only [runLoop]
  omega

/-- C3, witness: the amended theorem at `max_samples = 5` with the all-zero
escape oracle. -/
theorem C3_witness :
    (5 : ℤ) ≤ 5 ∧
    ((∀ n, (cellTrace 5 escZero n).samples ≤ (cellTrace 5 escZero (n + 1)).samples) ∧
    (∀ n, (cellTrace 5 escZero n).samples ≤ 5) ∧
    (runLoop 5 escZero).trial ≤ 5 ∧
    (∀ n, loopFuel 5 ≤ n → cellTrace 5 escZero n = runLoop 5 escZero)) :=
  ⟨by norm_num, C3_amended 5 escZero (by norm_num)⟩

lemma trace_lt_final_of_running (ms : ℤ) (esc : ℕ → ℕ) (n : ℕ)
    (hn : n < loopFuel ms)
    (hr : (cellTrace ms esc n).trial < (cellTrace ms esc n).samples) :
    (n : ℤ) < (runLoop ms esc).trial := by
  have hstep : (cellTrace ms esc (n + 1)).trial = (cellTrace ms esc n).trial + 1 := by
    simp only [cellTrace, if_pos hr, cellStep_trial]
  have ht := trace_trial_run ms esc n hr
  have hmono := trace_trial_mono ms esc (n + 1) (loopFuel ms) (by omega)
  simp only [runLoop]
  omega

/-- C4, counterexample: with `max_samples = 64` and every trial escaping at
time 1 (the oracle is constantly 1, so in particular every executed trial
escapes at exactly time 1 and no mixed behaviour occurs), the loop
terminates after 7 trials, not the minimum 5: the importance update raises
the budget to `5 + 2 * 1 * 1 = 7`. -/
theorem C4_cex :
    escOne 0 = 1 ∧ escOne 1 = 1 ∧ escOne 2 = 1 ∧ escOne 3 = 1 ∧
    escOne 4 = 1 ∧ escOne 5 = 1 ∧ escOne 6 = 1 ∧
    (runLoop 64 escOne).trial = 7 ∧ ¬ (runLoop 64 escOne).trial = 5 := by
  refine ⟨by decide, by decide, by decide, by decide, by decide, by decide,
    by decide, by decide, by decide⟩

lemma loopFuel_cast (ms : ℤ) : ((loopFuel ms : ℤ)) = max 5 ms := by
  have h0 : (0 : ℤ) ≤ max 5 ms := by omega
  simp [loopFuel, Int.toNat_of_nonneg h0]

lemma cellStep_one_fresh (ms : ℤ) (s : LoopState) (h : s.maxPath < 1) :
    cellStep ms 1 s = ⟨max s.samples (min ms 7), 1, s.trial + 1⟩ := by
  simp only [cellStep, importanceStep, straddleStep]
  push_cast
  split_ifs with h1 h2 <;> simp_all [LoopState.mk.injEq] <;> omega

lemma cellStep_one_seen (ms : ℤ) (s : LoopState) (h : s.maxPath = 1) :
    cellStep ms 1 s = ⟨s.samples, s.maxPath, s.trial + 1⟩ := by
  simp only [cellStep, importanceStep, straddleStep]
  push_cast
  split_ifs with h1 h2 <;> simp_all [LoopState.mk.injEq] <;> omega

/-- C4, amended: provided `max_samples >= 5`, a cell run in which every
executed trial escapes with escape time exactly 1 terminates after exactly
`min max_samples 7` trials (7 when `max_samples >= 7`), with `samples` left
at that same value — not after the minimum trial count 5. -/
theorem C4_amended (ms : ℤ) (esc : ℕ → ℕ) (h5 : 5 ≤ ms)
    (hall : ∀ t : ℕ, (t : ℤ) < (runLoop ms esc).trial → esc t = 1) :
    (runLoop ms esc).trial = min ms 7 ∧ (runLoop ms esc).samples = min ms 7 := by
  have hc := loopFuel_cast ms
  have hS5 : 5 ≤ min ms 7 := by omega
  have hSfuel : (min ms 7).toNat ≤ loopFuel ms := by omega
  have hfuelpos : 0 < loopFuel ms := by omega
  have key : ∀ n, 1 ≤ n → n ≤ (min ms 7).toNat →
      cellTrace ms esc n = ⟨min ms 7, 1, (n : ℤ)⟩ := by
    intro n
    induction n with
    | zero => intro h1 _; omega
    | succ n ih =>
      intro h1 h2
      by_cases hn0 : n = 0
      · subst hn0
        have h00 : cellTrace ms esc 0 = initState := rfl
        have hr0 : (cellTrace ms esc 0).trial < (cellTrace ms esc 0).samples := by
          rw [h00]
          norm_num [initState]
        have he0 : esc 0 = 1 := by
          have := trace_lt_final_of_running ms esc 0 hfuelpos hr0
          exact hall 0 (by exact_mod_cast this)
        have hstep : cellTrace ms esc 1 = cellStep ms 1 initState := by
          simp only [cellTrace, h00]
          rw [if_pos (by norm_num [initState])]
          norm_num [initState, he0]
        rw [hstep, cellStep_one_fresh ms initState (by norm_num [initState])]
        have hmx : max (5 : ℤ) (min ms 7) = min ms 7 := by omega
        simp [initState, LoopState.mk.injEq, hmx]
      · have h1n : 1 ≤ n := by omega
        have h2n : n ≤ (min ms 7).toNat := by omega
        have ihn := ih h1n h2n
        have hrn : (cellTrace ms esc n).trial < (cellTrace ms esc n).samples := by
          rw [ihn]
          show (n : ℤ) < min ms 7
          omega
        have hen : esc n = 1 := by
          have := trace_lt_final_of_running ms esc n (by omega) hrn
          exact hall n this
        have hstep : cellTrace ms esc (n + 1) = cellStep ms 1 (cellTrace ms esc n) := by
          simp only [cellTrace]
          rw [if_pos hrn]
          have htn : (cellTrace ms esc n).trial.toNat = n := by
            rw [ihn]
            show ((n : ℤ)).toNat = n
            omega
          rw [htn, hen]
        rw [hstep, cellStep_one_seen ms _ (by rw [ihn])]
        rw [ihn]
        push_cast
        simp [LoopState.mk.injEq]
  have hSN := key (min ms 7).toNat (by omega) le_rfl
  have hstop : ¬ (cellTrace ms esc (min ms 7).toNat).trial <
      (cellTrace ms esc (min ms 7).toNat).samples := by
    rw [hSN]
    show ¬ ((((min ms 7).toNat : ℤ)) < min ms 7)
    omega
  have hfin := trace_stable ms esc (min ms 7).toNat hstop (loopFuel ms) hSfuel
  have hrl : runLoop ms esc = ⟨min ms 7, 1, (((min ms 7).toNat : ℤ))⟩ := by
    rw [runLoop, hfin, hSN]
  rw [hrl]
  constructor
  · show (((min ms 7).toNat : ℤ)) = min ms 7
    omega
  · rfl

theorem C4_witness :
    (5 : ℤ) ≤ 64 ∧
    ((runLoop 64 escOne).trial = min 64 7 ∧ (runLoop 64 escOne).samples = min 64 7) :=
  ⟨by norm_num, C4_amended 64 escOne (by norm_num) (fun t _ => rfl)⟩

/-! ## Claim C7: the invocation surface of main (src/buddhabrot.cpp:196-208)

The only validation `main` performs is `if (argc != 5) { usage; return 1; }`
— with the program name excluded, exactly four positional parameters.  The
four values are then read with `atoi` and used as they are; no sign or
range check ever runs. -/

/-- The argument gate of `main`: `none` models the usage-message path
(`return 1`, nothing rendered, no file written); `some` returns the four
`atoi`-parsed values `(image_size, iterations, n_threads, max_samples)`
that rendering then proceeds with, unchecked. -/
def mainChecksArgs (args : List ℤ) : Option (ℤ × ℤ × ℤ × ℤ) :=
  match args with
  | [a, b, c, d] => some (a, b, c, d)
  | _ => none

/-- C7, counterexample: the invocation `buddhabrot 0 1000 12 64` has a
non-positive image size, yet `main` does not take the usage-exit path: it
proceeds to rendering with the unchecked values. -/
theorem C7_cex :
    (0 : ℤ) ≤ 0 ∧
    mainChecksArgs [0, 1000, 12, 64] = some (0, 1000, 12, 64) ∧
    mainChecksArgs [0, 1000, 12, 64] ≠ none := by
  refine ⟨le_rfl, rfl, by decide⟩

/-- C7, amended: the program rejects an invocation — usage text on the
diagnostic stream, exit status 1, no rendering and no output file — exactly
when the number of positional parameters differs from four; the values
themselves, including non-positive ones, are never validated and rendering
proceeds with them. -/
theorem C7_amended (args : List ℤ) :
    mainChecksArgs args = none ↔ args.length ≠ 4 := by
  match args with
  | [] => simp [mainChecksArgs]
  | [a] => simp [mainChecksArgs]
  | [a, b] => simp [mainChecksArgs]
  | [a, b, c] => simp [mainChecksArgs]
  | [a, b, c, d] => simp [mainChecksArgs]
  | a :: b :: c :: d :: e :: rest => simp [mainChecksArgs]

/-! ## Claim C9: the row partition of render (src/buddhabrot.cpp:142-150)
and the worker construction of main (src/buddhabrot.cpp:209-217)

Worker `i` of `N` is constructed with `stride = n_threads` and
`stride_offset = i`; its `render` visits rows
`u = stride_offset, stride_offset + stride, ...` while `u < image_size`. -/

/-- The row loop of `render`:
`for (idx u = stride_offset; u < image_size; u += stride)`.
`fuel` bounds the number of iterations; `size.toNat` is enough fuel for any
positive stride and nonnegative offset, which is how `main` instantiates
the loop. -/
def rowLoopGo (size stride : ℤ) : ℕ → ℤ → List ℤ
  | 0, _ => []
  | fuel + 1, u => if u < size then u :: rowLoopGo size stride fuel (u + stride) else []

/-- The rows visited by the worker constructed with the given stride and
stride offset. -/
def workerRows (size stride offset : ℤ) : List ℤ :=
  rowLoopGo size stride size.toNat offset

lemma rowLoopGo_mem (size stride : ℤ) (hs : 0 < stride) :
    ∀ (fuel : ℕ) (u x : ℤ), size ≤ u + stride * (fuel : ℤ) →
      (x ∈ rowLoopGo size stride fuel u ↔ (∃ k : ℕ, x = u + (k : ℤ) * stride) ∧ x < size) := by
  intro fuel
  induction fuel with
  | zero =>
    intro u x hfuel
    simp only [rowLoopGo, List.not_mem_nil, false_iff]
    rintro ⟨⟨k, hk⟩, hx⟩
    have : (0 : ℤ) ≤ (k : ℤ) * stride := by positivity
    omega
  | succ n ih =>
    intro u x hfuel
    simp only [rowLoopGo]
    split
    · rename_i hu
      have hrec := ih (u + stride) x (by
        push_cast at hfuel ⊢
        have hmul : stride * ((n : ℤ) + 1) = stride * (n : ℤ) + stride := by ring
        omega)
      simp only [List.mem_cons, hrec]
      constructor
      · rintro (rfl | ⟨⟨k, hk⟩, hx⟩)
        · exact ⟨⟨0, by omega⟩, hu⟩
        · refine ⟨⟨k + 1, by
            push_cast at hk ⊢
            have hmul : ((k : ℤ) + 1) * stride = (k : ℤ) * stride + stride := by ring
            omega⟩, hx⟩
      · rintro ⟨⟨k, hk⟩, hx⟩
        match k with
        | 0 => left; omega
        | k + 1 =>
          right
          refine ⟨⟨k, by
            push_cast at hk ⊢
            have hmul : ((k : ℤ) + 1) * stride = (k : ℤ) * stride + stride := by ring
            omega⟩, hx⟩
    · rename_i hu
      simp only [List.not_mem_nil, false_iff]
      rintro ⟨⟨k, hk⟩, hx⟩
      have : (0 : ℤ) ≤ (k : ℤ) * stride := by positivity
      omega

lemma workerRows_mem (size N i : ℤ) (hs : 0 < size) (hN : 0 < N)
    (hi0 : 0 ≤ i) (hiN : i < N) (u : ℤ) :
    u ∈ workerRows size N i ↔ (0 ≤ u ∧ u < size ∧ u % N = i) := by
  have hfuel : size ≤ i + N * ((size.toNat : ℤ)) := by
    have h1 : ((size.toNat : ℤ)) = size := Int.toNat_of_nonneg (by omega)
    nlinarith
  rw [workerRows, rowLoopGo_mem size N hN size.toNat i u hfuel]
  constructor
  · rintro ⟨⟨k, rfl⟩, hx⟩
    refine ⟨by positivity, hx, ?_⟩
    rw [Int.add_mul_emod_self]
    exact Int.emod_eq_of_lt hi0 hiN
  · rintro ⟨hu0, hus, humod⟩
    refine ⟨⟨(u / N).toNat, ?_⟩, hus⟩
    have hdiv : N * (u / N) + u % N = u := Int.ediv_add_emod u N
    have hdnn : 0 ≤ u / N := Int.ediv_nonneg hu0 (by omega)
    have hcast : ((u / N).toNat : ℤ) = u / N := Int.toNat_of_nonneg hdnn
    have hmul : ((u / N).toNat : ℤ) * N = N * (u / N) := by rw [hcast]; ring
    omega

/-- C9: with a positive image size and worker count, worker `i` (stride `N`,
offset `i`, as `main` constructs it) visits exactly the rows
`{i, i + N, i + 2N, ...}` within `[0, image_size)` — characterised as the
rows with residue `i` mod `N`; distinct workers' row sets are disjoint, and
every row belongs to exactly one worker. -/
theorem C9_partition (size N : ℤ) (hs : 0 < size) (hN : 0 < N) :
    (∀ i : ℤ, 0 ≤ i → i < N → ∀ u : ℤ,
      u ∈ workerRows size N i ↔ (0 ≤ u ∧ u < size ∧ u % N = i)) ∧
    (∀ i j : ℤ, 0 ≤ i → i < N → 0 ≤ j → j < N → i ≠ j →
      ∀ u : ℤ, u ∈ workerRows size N i → u ∉ workerRows size N j) ∧
    (∀ u : ℤ, 0 ≤ u → u < size →
      ∃! i : ℤ, (0 ≤ i ∧ i < N) ∧ u ∈ workerRows size N i) := by
  refine ⟨fun i hi0 hiN u => workerRows_mem size N i hs hN hi0 hiN u, ?_, ?_⟩
  · intro i j hi0 hiN hj0 hjN hij u hui huj
    rw [workerRows_mem size N i hs hN hi0 hiN u] at hui
    rw [workerRows_mem size N j hs hN hj0 hjN u] at huj
    omega
  · intro u hu0 hus
    refine ⟨u % N, ⟨⟨Int.emod_nonneg u (by omega), Int.emod_lt_of_pos u hN⟩, ?_⟩, ?_⟩
    · rw [workerRows_mem size N (u % N) hs hN (Int.emod_nonneg u (by omega))
        (Int.emod_lt_of_pos u hN) u]
      exact ⟨hu0, hus, rfl⟩
    · rintro j ⟨⟨hj0, hjN⟩, huj⟩
      rw [workerRows_mem size N j hs hN hj0 hjN u] at huj
      omega

/-- C9, witness: the partition theorem applied at `image_size = 4` and
`n_threads = 4` (one row per worker). -/
theorem C9_witness :
    (0 : ℤ) < 4 ∧ (0 : ℤ) < 4 ∧
    ((∀ i : ℤ, 0 ≤ i → i < 4 → ∀ u : ℤ,
      u ∈ workerRows 4 4 i ↔ (0 ≤ u ∧ u < 4 ∧ u % 4 = i)) ∧
    (∀ i j : ℤ, 0 ≤ i → i < 4 → 0 ≤ j → j < 4 → i ≠ j →
      ∀ u : ℤ, u ∈ workerRows 4 4 i → u ∉ workerRows 4 4 j) ∧
    (∀ u : ℤ, 0 ≤ u → u < 4 →
      ∃! i : ℤ, (0 ≤ i ∧ i < 4) ∧ u ∈ workerRows 4 4 i)) :=
  ⟨by norm_num, by norm_num, C9_partition 4 4 (by norm_num) (by norm_num)⟩

/-! ## The merge and tone-map step `write` (src/buddhabrot.cpp:160-194)

A per-worker histogram is a grid of accumulators indexed by pixel
coordinates; `write` first folds the per-pixel sums (without the mirrored
column) through `if (x < min_val)` / `if (x > max_val)` updates with
`min_val` starting at infinity and `max_val` starting at 0, then emits, per
pixel, `(2^16 - 1) * sqrt((x * 0.5 - min_val) / (max_val - min_val))` where
this second `x` additionally folds in the mirrored column
`image_size - 1 - v`, and the float result is cast to a 16-bit integer
(truncation).  `std::sqrt` is modelled by `Real.sqrt`; the cast by the
floor of the (nonnegative) value.  The division is rational division,
meaningful when `max_val - min_val` is nonzero; at `max_val == min_val` the
source divides by zero in float arithmetic (claim C6). -/

/-- A histogram grid: the image vector of one `buddhabrot`, indexed as
`image[u * image_size + v]` through `operator()(u, v)`. -/
def Hist : Type := ℤ → ℤ → ℚ

/-- Per-pixel sum over all workers: `x = 0; for (auto& b : brots) x += b(u,v);`
(src/buddhabrot.cpp:167-170). -/
def sumAt (brots : List Hist) (u v : ℤ) : ℚ :=
  brots.foldl (fun x b => x + b u v) 0

/-- The per-pixel sums in the order the min/max loop visits them
(`u` outer, `v` inner, src/buddhabrot.cpp:165-166). -/
def gridVals (size : ℕ) (brots : List Hist) : List ℚ :=
  ((List.range size).map (fun (u : ℕ) =>
    (List.range size).map (fun (v : ℕ) => sumAt brots (u : ℤ) (v : ℤ)))).flatten

/-- One `if (x < min_val) min_val = x;` update; `none` is the initial
`min_val = infinity`. -/
def minStep (m : Option ℚ) (x : ℚ) : Option ℚ :=
  match m with
  | none => some x
  | some y => if x < y then some x else some y

/-- One `if (x > max_val) max_val = x;` update. -/
def maxStep (m x : ℚ) : ℚ := if m < x then x else m

/-- `min_val` after the first loop of `write`; `none` only when the grid is
empty (`image_size = 0`). -/
def minVal (size : ℕ) (brots : List Hist) : Option ℚ :=
  (gridVals size brots).foldl minStep none

/-- `max_val` after the first loop of `write` (initialised to 0). -/
def maxVal (size : ℕ) (brots : List Hist) : ℚ :=
  (gridVals size brots).foldl maxStep 0

/-- The sample `write` stores at pixel `(u, v)`:
`(2^16 - 1) * sqrt((x * 0.5 - min_val) / (max_val - min_val))` truncated to
an integer, where `x` sums the pixel and its mirrored column across all
workers (src/buddhabrot.cpp:181-191). -/
noncomputable def sampleAt (size : ℕ) (brots : List Hist) (u v : ℤ) : ℤ :=
  match minVal size brots with
  | none => 0
  | some m =>
    ⌊(65535 : ℝ) * Real.sqrt
      ((((sumAt brots u v + sumAt brots u ((size : ℤ) - 1 - v)) * (1 / 2) - m) /
        (maxVal size brots - m) : ℚ) : ℝ)⌋

/-- Modelled from the claim (C5), for comparison with `sampleAt`: the
mirrored per-pixel sums — "the summed grid that the tone curve is applied
to". -/
def mirrorVals (size : ℕ) (brots : List Hist) : List ℚ :=
  ((List.range size).map (fun (u : ℕ) =>
    (List.range size).map (fun (v : ℕ) =>
      sumAt brots (u : ℤ) (v : ℤ) + sumAt brots (u : ℤ) ((size : ℤ) - 1 - (v : ℤ))))).flatten

/-- Modelled from the claim (C5): the global minimum over the mirrored grid. -/
def specMin (size : ℕ) (brots : List Hist) : ℚ :=
  match mirrorVals size brots with
  | [] => 0
  | x :: xs => xs.foldl min x

/-- Modelled from the claim (C5): the global maximum over the mirrored grid. -/
def specMax (size : ℕ) (brots : List Hist) : ℚ :=
  match mirrorVals size brots with
  | [] => 0
  | x :: xs => xs.foldl max x

/-- Modelled from the claim (C5): the sample the claim asserts is written —
`round(65535 * sqrt((x - min) / (max - min)))` with `x` the mirrored sum and
min/max taken over the mirrored grid. -/
noncomputable def specSample (size : ℕ) (brots : List Hist) (u v : ℤ) : ℤ :=
  round ((65535 : ℝ) * Real.sqrt
    ((((sumAt brots u v + sumAt brots u ((size : ℤ) - 1 - v)) - specMin size brots) /
      (specMax size brots - specMin size brots) : ℚ) : ℝ))

lemma foldl_maxStep_spec :
    ∀ (l : List ℚ) (a : ℚ),
      a ≤ l.foldl maxStep a ∧ (∀ x ∈ l, x ≤ l.foldl maxStep a) ∧
        (l.foldl maxStep a = a ∨ l.foldl maxStep a ∈ l) := by
  intro l
  induction l with
  | nil => intro a; simp
  | cons x xs ih =>
    intro a
    simp only [List.foldl_cons]
    obtain ⟨ih1, ih2, ih3⟩ := ih (maxStep a x)
    have hbase : a ≤ maxStep a x ∧ x ≤ maxStep a x ∧ (maxStep a x = a ∨ maxStep a x = x) := by
      simp only [maxStep]
      split_ifs with hax <;> refine ⟨by linarith, by linarith, by tauto⟩
    refine ⟨le_trans hbase.1 ih1, ?_, ?_⟩
    · intro y hy
      rcases List.mem_cons.mp hy with rfl | hy2
      · exact le_trans hbase.2.1 ih1
      · exact ih2 y hy2
    · rcases ih3 with heq | hmem
      · rcases hbase.2.2 with ha | hx
        · left; rw [heq, ha]
        · right; rw [heq, hx]; exact List.mem_cons_self x xs
      · right; exact List.mem_cons_of_mem x hmem
  
lemma foldl_minStep_some :
    ∀ (l : List ℚ) (y : ℚ), ∃ m, l.foldl minStep (some y) = some m ∧ m ≤ y ∧
      (∀ x ∈ l, m ≤ x) ∧ (m = y ∨ m ∈ l) := by
  intro l
  induction l with
  | nil => intro y; exact ⟨y, by simp⟩
  | cons x xs ih =>
    intro y
    simp only [List.foldl_cons]
    have hstep : minStep (some y) x = some (if x < y then x else y) := by
      simp only [minStep]
      split <;> simp
    rw [hstep]
    obtain ⟨m, hm, hmy, hall, hmem⟩ := ih (if x < y then x else y)
    refine ⟨m, hm, ?_, ?_, ?_⟩
    · split_ifs at hmy with hxy
      · linarith
      · exact hmy
    · intro z hz
      rcases List.mem_cons.mp hz with rfl | hz2
      · split_ifs at hmy with hxy
        · exact hmy
        · linarith [not_lt.mp hxy]
      · exact hall z hz2
    · rcases hmem with rfl | hmem2
      · split
        · right; exact List.mem_cons_self x xs
        · left; rfl
      · right; exact List.mem_cons_of_mem x hmem2

lemma foldl_minStep_none (l : List ℚ) (m : ℚ)
    (h : l.foldl minStep none = some m) :
    (∀ x ∈ l, m ≤ x) ∧ m ∈ l := by
  match l with
  | [] => simp [List.foldl] at h
  | x :: xs =>
    simp only [List.foldl_cons] at h
    have hstep : minStep none x = some x := rfl
    rw [hstep] at h
    obtain ⟨m2, hm2, hmy, hall, hmem⟩ := foldl_minStep_some xs x
    rw [hm2] at h
    injection h with h
    subst h
    constructor
    · intro z hz
      rcases List.mem_cons.mp hz with rfl | hz2
      · exact hmy
      · exact hall z hz2
    · rcases hmem with heq | hmem2
      · rw [heq]; exact List.mem_cons_self x xs
      · exact List.mem_cons_of_mem x hmem2

lemma gridVals_mem (size : ℕ) (brots : List Hist) (q : ℚ) :
    q ∈ gridVals size brots ↔
      ∃ u v : ℕ, u < size ∧ v < size ∧ sumAt brots (u : ℤ) (v : ℤ) = q := by
  constructor
  · intro hq
    rw [gridVals, List.mem_flatten] at hq
    obtain ⟨l, hlL, hql⟩ := hq
    obtain ⟨u, hu, rfl⟩ := List.mem_map.mp hlL
    obtain ⟨v, hv, hq⟩ := List.mem_map.mp hql
    exact ⟨u, v, List.mem_range.mp hu, List.mem_range.mp hv, hq⟩
  · rintro ⟨u, v, hu, hv, hq⟩
    rw [gridVals, List.mem_flatten]
    refine ⟨_, List.mem_map_of_mem _ (List.mem_range.mpr hu), ?_⟩
    exact List.mem_map.mpr ⟨v, List.mem_range.mpr hv, hq⟩

/-- The all-zero worker histogram list: one worker whose grid is entirely
zero, as produced e.g. by `buddhabrot 4 1 1 5` (with `iterations = 1` the
inner loop can only ever set `escaped_time = 0`, so nothing is plotted). -/
def brots0 : List Hist := [fun _ _ => 0]

/-- C6: at a uniform (all-zero) histogram the min/max fold of `write`
yields `min_val = max_val = 0`, so the normalisation
`(x * 0.5 - min_val) / (max_val - min_val)` divides by zero: in the
source's float arithmetic this is `0.0/0.0 = NaN`, propagated through
`sqrt` into the `uint16` cast — there is no flat-fallback branch in the
code.  (With cap 1 no seed can ever report a non-zero escape time, so the
all-zero histogram is reachable.) -/
theorem C6_divzero :
    minVal 2 brots0 = some 0 ∧ maxVal 2 brots0 = 0 ∧
    maxVal 2 brots0 - 0 = 0 ∧
    (∀ c : Pt, escapeTime 1 c = 0) := by
  refine ⟨?_, ?_, ?_, ?_⟩
  · norm_num [minVal, gridVals, sumAt, brots0, minStep, List.range_succ]
  · norm_num [maxVal, gridVals, sumAt, brots0, maxStep, List.range_succ]
  · norm_num [maxVal, gridVals, sumAt, brots0, maxStep, List.range_succ]
  · intro c
    simp only [escapeTime, escLoopGo]
    split <;> rfl

/-- C5, amended: when the min/max fold found a minimum `m` (the grid is
nonempty), the sample written at pixel `(u, v)` is
`floor(65535 * sqrt((x * 0.5 - min) / (max - min)))` — a truncation, not a
rounding — where `x` is the pixel's summed value plus the mirrored column's,
but `min` and `max` are the global minimum and maximum of the *unmirrored*
per-pixel sums (`max` additionally joined with its initial value 0): `m`
bounds every unmirrored sum from below and is attained, and `maxVal` bounds
every unmirrored sum from above. -/
theorem C5_amended (size : ℕ) (brots : List Hist) (u v : ℤ) (m : ℚ)
    (hmin : minVal size brots = some m) :
    (∀ a b : ℕ, a < size → b < size → m ≤ sumAt brots (a : ℤ) (b : ℤ)) ∧
    (∃ a b : ℕ, a < size ∧ b < size ∧ sumAt brots (a : ℤ) (b : ℤ) = m) ∧
    (∀ a b : ℕ, a < size → b < size → sumAt brots (a : ℤ) (b : ℤ) ≤ maxVal size brots) ∧
    0 ≤ maxVal size brots ∧
    sampleAt size brots u v =
      ⌊(65535 : ℝ) * Real.sqrt
        ((((sumAt brots u v + sumAt brots u ((size : ℤ) - 1 - v)) * (1 / 2) - m) /
          (maxVal size brots - m) : ℚ) : ℝ)⌋ := by
  have hmin2 : (gridVals size brots).foldl minStep none = some m := hmin
  obtain ⟨hall, hmem⟩ := foldl_minStep_none _ m hmin2
  obtain ⟨hmax0, hmaxall, -⟩ := foldl_maxStep_spec (gridVals size brots) 0
  refine ⟨?_, ?_, ?_, hmax0, ?_⟩
  · intro a b ha hb
    exact hall _ ((gridVals_mem size brots _).mpr ⟨a, b, ha, hb, rfl⟩)
  · exact (gridVals_mem size brots m).mp hmem
  · intro a b ha hb
    exact hmaxall _ ((gridVals_mem size brots _).mpr ⟨a, b, ha, hb, rfl⟩)
  · simp only [sampleAt, hmin]

/-- A single-worker histogram list distinguishing the code's tone map from
the claimed one: the unmirrored grid is `[[0, 4], [1, 1]]`. -/
def brots1 : List Hist := [fun u v => if u = 0 ∧ v = 1 then 4 else if u = 1 then 1 else 0]

lemma brots1_min : minVal 2 brots1 = some 0 := by
  norm_num [minVal, gridVals, sumAt, brots1, minStep, List.range_succ]

lemma brots1_max : maxVal 2 brots1 = 4 := by
  norm_num [maxVal, gridVals, sumAt, brots1, maxStep, List.range_succ]

/-- C5, counterexample: at pixel `(1, 0)` of the 2-by-2 grid `[[0, 4], [1, 1]]`
with one worker, the code writes
`floor(65535 * sqrt(((1 + 1) * 0.5 - 0) / (4 - 0))) = floor(65535 / 2) = 32767`
(min/max over the unmirrored sums are 0 and 4, and the cast truncates), while
the claimed formula `round(65535 * sqrt((x - min) / (max - min)))` with `x`
the mirrored sum `2` and min/max `2` and `4` over the mirrored grid yields
`round(65535 * sqrt(0)) = 0`. -/
theorem C5_cex :
    sampleAt 2 brots1 1 0 = 32767 ∧ specSample 2 brots1 1 0 = 0 ∧
    sampleAt 2 brots1 1 0 ≠ specSample 2 brots1 1 0 := by
  have h1 : sampleAt 2 brots1 1 0 = 32767 := by
    simp only [sampleAt, brots1_min]
    have harg : (((sumAt brots1 1 0 + sumAt brots1 1 (((2 : ℕ) : ℤ) - 1 - 0)) * (1 / 2) - 0) /
        (maxVal 2 brots1 - 0) : ℚ) = 1 / 4 := by
      rw [brots1_max]
      norm_num [sumAt, brots1]
    rw [harg]
    have hc : (((1 : ℚ) / 4 : ℚ) : ℝ) = (1 / 2 : ℝ) ^ 2 := by push_cast; norm_num
    rw [hc, Real.sqrt_sq (by norm_num : (0 : ℝ) ≤ 1 / 2)]
    rw [Int.floor_eq_iff]
    constructor
    · norm_num
    · norm_num
  have h2 : specSample 2 brots1 1 0 = 0 := by
    simp only [specSample]
    have harg : (((sumAt brots1 1 0 + sumAt brots1 1 (((2 : ℕ) : ℤ) - 1 - 0)) - specMin 2 brots1) /
        (specMax 2 brots1 - specMin 2 brots1) : ℚ) = 0 := by
      have hsm : specMin 2 brots1 = 2 := by
        norm_num [specMin, mirrorVals, sumAt, brots1, List.range_succ]
      rw [hsm]
      norm_num [sumAt, brots1]
    rw [harg]
    norm_num
  exact ⟨h1, h2, by rw [h1, h2]; norm_num⟩

/-- C5, witness: the amended theorem applied at the concrete grid of the
counterexample, pixel `(1, 0)`, with minimum 0. -/
theorem C5_witness :
    minVal 2 brots1 = some 0 ∧
    ((∀ a b : ℕ, a < 2 → b < 2 → (0 : ℚ) ≤ sumAt brots1 (a : ℤ) (b : ℤ)) ∧
    (∃ a b : ℕ, a < 2 ∧ b < 2 ∧ sumAt brots1 (a : ℤ) (b : ℤ) = 0) ∧
    (∀ a b : ℕ, a < 2 → b < 2 → sumAt brots1 (a : ℤ) (b : ℤ) ≤ maxVal 2 brots1) ∧
    0 ≤ maxVal 2 brots1 ∧
    sampleAt 2 brots1 1 0 =
      ⌊(65535 : ℝ) * Real.sqrt
        ((((sumAt brots1 1 0 + sumAt brots1 1 ((2 : ℤ) - 1 - 0)) * (1 / 2) - 0) /
          (maxVal 2 brots1 - 0) : ℚ) : ℝ)⌋) :=
  ⟨brots1_min, C5_amended 2 brots1 1 0 0 brots1_min⟩

/-! ## The histogram accumulation of render_region (src/buddhabrot.cpp:119-125)

After the trial loop, `weight = 1.0 / samples` and, for each
`trial < samples`, each stored trajectory point at positions
`[0, buflen[trial])` is projected to a pixel and, when in bounds, `weight`
is added to that histogram cell. -/

/-- C-style float-to-integer conversion (truncation toward zero), as the
`static_cast<idx>` of `to_px`. -/
def qtrunc (q : ℚ) : ℤ := if q < 0 then -⌊-q⌋ else ⌊q⌋

/-- `to_px` (src/buddhabrot.cpp:48-52): point to pixel,
`(image_size * (re + 2) / 4, image_size * (im + 2) / 4)` truncated. -/
def to_px (size : ℤ) (z : Pt) : ℤ × ℤ :=
  (qtrunc (((size : ℚ) * (z.re + 2)) / 4), qtrunc (((size : ℚ) * (z.im + 2)) / 4))

/-- `in_bounds` (src/buddhabrot.cpp:65-68). -/
def inBounds (size : ℤ) (y : ℤ × ℤ) : Prop :=
  0 ≤ y.1 ∧ 0 ≤ y.2 ∧ y.1 < size ∧ y.2 < size

instance (size : ℤ) (y : ℤ × ℤ) : Decidable (inBounds size y) :=
  inferInstanceAs (Decidable (0 ≤ y.1 ∧ 0 ≤ y.2 ∧ y.1 < size ∧ y.2 < size))

/-- One plotting step (src/buddhabrot.cpp:122-123):
`px y = to_px(buf[trial][i]); if (in_bounds(y)) (*this)(y.first, y.second) += weight;`. -/
def plotPoint (size : ℤ) (w : ℚ) (H : Hist) (z : Pt) : Hist :=
  let y := to_px size z
  if inBounds size y then (fun u v => if y.1 = u ∧ y.2 = v then H u v + w else H u v)
  else H

/-- The inner plotting loop over one trial's stored prefix. -/
def plotList (size : ℤ) (w : ℚ) (H : Hist) : List Pt → Hist
  | [] => H
  | z :: zs => plotList size w (plotPoint size w H z) zs

/-- The outer accumulation loop `for (trial = 0; trial < samples; trial++)`
(src/buddhabrot.cpp:120-125): `rem` counts the remaining trials, `t` is the
current trial index; `results t` is the pair `(buflen[t], buf[t])`. -/
def accumGo (size : ℤ) (w : ℚ) (results : ℕ → ℕ × List Pt) : ℕ → ℕ → Hist → Hist
  | 0, _, H => H
  | rem + 1, t, H =>
    accumGo size w results rem (t + 1)
      (plotList size w H ((results t).2.take (results t).1))

/-- The per-trial escape times of `render_region` under the seed oracle:
trial `t` draws `seeds t` and runs the inner loop on it. -/
def regionEsc (it : ℕ) (seeds : ℕ → Pt) : ℕ → ℕ :=
  fun t => (escLoopGo (seeds t) it 0 pz).1

/-- The state in which the trial loop of `render_region` terminates, with
the actual escape times as oracle. -/
def regionState (it : ℕ) (ms : ℤ) (seeds : ℕ → Pt) : LoopState :=
  runLoop ms (regionEsc it seeds)

/-- The `(buflen[t], buf[t])` contents after the trial loop: rows of trials
that executed hold that trial's escape time and stored points; rows never
written keep their zero initialisation (`buflen` is value-initialised, so
reading an unwritten row contributes nothing). -/
def regionResults (it : ℕ) (ms : ℤ) (seeds : ℕ → Pt) : ℕ → ℕ × List Pt :=
  fun t =>
    if (t : ℤ) < (regionState it ms seeds).trial then escLoopGo (seeds t) it 0 pz
    else (0, [])

/-- `weight = 1.0 / samples` (src/buddhabrot.cpp:119). -/
def regionWeight (it : ℕ) (ms : ℤ) (seeds : ℕ → Pt) : ℚ :=
  1 / ((regionState it ms seeds).samples : ℚ)

/-- `render_region` (src/buddhabrot.cpp:85-126): the trial loop followed by
the weighted accumulation of every executed trial's stored prefix; returns
the final loop state and the histogram produced from the all-zero grid. -/
def renderRegion (size : ℤ) (it : ℕ) (ms : ℤ) (seeds : ℕ → Pt) : LoopState × Hist :=
  (regionState it ms seeds,
    accumGo size (regionWeight it ms seeds) (regionResults it ms seeds)
      (regionState it ms seeds).samples.toNat 0 (fun _ _ => 0))

/-- The number of points of `pts` that project, in bounds, onto the pixel
`(u, v)`. -/
def hits (size u v : ℤ) (pts : List Pt) : ℕ :=
  pts.countP (fun z =>
    decide (inBounds size (to_px size z) ∧ (to_px size z).1 = u ∧ (to_px size z).2 = v))

lemma plotPoint_apply (size : ℤ) (w : ℚ) (H : Hist) (z : Pt) (u v : ℤ) :
    plotPoint size w H z u v = H u v +
      (if inBounds size (to_px size z) ∧ (to_px size z).1 = u ∧ (to_px size z).2 = v
        then w else 0) := by
  simp only [plotPoint]
  by_cases hb : inBounds size (to_px size z)
  · rw [if_pos hb]
    by_cases he : (to_px size z).1 = u ∧ (to_px size z).2 = v
    · rw [if_pos he, if_pos ⟨hb, he⟩]
    · rw [if_neg he, if_neg (fun hcon => he hcon.2), add_zero]
  · rw [if_neg hb, if_neg (fun hcon => hb hcon.1), add_zero]

lemma hits_cons (size u v : ℤ) (z : Pt) (zs : List Pt) :
    (hits size u v (z :: zs) : ℚ) = (hits size u v zs : ℚ) +
      (if inBounds size (to_px size z) ∧ (to_px size z).1 = u ∧ (to_px size z).2 = v
        then 1 else 0) := by
  simp only [hits, List.countP_cons]
  by_cases hc : inBounds size (to_px size z) ∧ (to_px size z).1 = u ∧ (to_px size z).2 = v
  · rw [if_pos hc]
    simp [hc]
  · rw [if_neg hc]
    simp [hc]

lemma plotList_apply (size : ℤ) (w : ℚ) :
    ∀ (pts : List Pt) (H : Hist) (u v : ℤ),
      plotList size w H pts u v = H u v + w * (hits size u v pts : ℚ) := by
  intro pts
  induction pts with
  | nil =>
    intro H u v
    simp [plotList, hits]
  | cons z zs ih =>
    intro H u v
    simp only [plotList]
    rw [ih (plotPoint size w H z) u v, plotPoint_apply, hits_cons]
    split_ifs <;> ring

lemma accumGo_apply (size : ℤ) (w : ℚ) (results : ℕ → ℕ × List Pt) :
    ∀ (rem t : ℕ) (H : Hist) (u v : ℤ),
      accumGo size w results rem t H u v = H u v +
        w * (((List.range rem).map (fun k =>
          (hits size u v ((results (t + k)).2.take (results (t + k)).1) : ℚ))).sum) := by
  intro rem
  induction rem with
  | zero =>
    intro t H u v
    simp [accumGo]
  | succ rem ih =>
    intro t H u v
    simp only [accumGo]
    rw [ih (t + 1) _ u v, plotList_apply]
    rw [List.range_succ_eq_map, List.map_cons, List.map_map, List.sum_cons]
    have hfe : ((List.range rem).map
        (fun k => (hits size u v ((results (t + 1 + k)).2.take (results (t + 1 + k)).1) : ℚ))) =
        ((List.range rem).map ((fun k =>
          (hits size u v ((results (t + k)).2.take (results (t + k)).1) : ℚ)) ∘ Nat.succ)) := by
      apply List.map_congr_left
      intro k _
      simp only [Function.comp]
      have : t + 1 + k = t + Nat.succ k := by omega
      rw [this]
    rw [hfe]
    simp only [Nat.add_zero]
    ring

lemma runLoop_trial_eq_samples (ms : ℤ) (esc : ℕ → ℕ) (h5 : 5 ≤ ms) :
    (runLoop ms esc).trial = (runLoop ms esc).samples := by
  have h1 := runLoop_stopped ms esc
  have h2 := trace_trial_le_samples ms esc h5 (loopFuel ms)
  simp only [runLoop] at h1 ⊢
  omega

/-- C8: with a valid trial ceiling (`max_samples >= 5`, which is also what
keeps the loop within the allocated `buf` rows), the histogram produced by
`render_region` at any pixel equals `weight = 1 / samples` times the total
number of stored trajectory points, over the `samples` executed trials, at
positions `[0, escaped_time)` that project in bounds onto that pixel: each
such point of an escaped trial contributes exactly one `weight`,
out-of-bounds points are dropped, and a trial that did not escape
(`escaped_time = 0`) has an empty prefix and contributes nothing. -/
theorem C8_weights (size : ℤ) (it : ℕ) (ms : ℤ) (seeds : ℕ → Pt) (h5 : 5 ≤ ms)
    (u v : ℤ) :
    (renderRegion size it ms seeds).2 u v =
      regionWeight it ms seeds *
        (((List.range (regionState it ms seeds).samples.toNat).map
          (fun t => (hits size u v (trialPts it (seeds t)) : ℚ))).sum) ∧
    (∀ c : Pt, escapeTime it c = 0 → trialPts it c = []) := by
  constructor
  · show accumGo size (regionWeight it ms seeds) (regionResults it ms seeds)
      (regionState it ms seeds).samples.toNat 0 (fun _ _ => 0) u v = _
    rw [accumGo_apply]
    have htr : (regionState it ms seeds).trial = (regionState it ms seeds).samples :=
      runLoop_trial_eq_samples ms (regionEsc it seeds) h5
    have hs5 : 5 ≤ (regionState it ms seeds).samples :=
      (trace_inv5 ms (regionEsc it seeds) h5 (loopFuel ms)).1
    have hmapeq : ((List.range (regionState it ms seeds).samples.toNat).map (fun k =>
        (hits size u v ((regionResults it ms seeds (0 + k)).2.take
          (regionResults it ms seeds (0 + k)).1) : ℚ))) =
        ((List.range (regionState it ms seeds).samples.toNat).map
          (fun t => (hits size u v (trialPts it (seeds t)) : ℚ))) := by
      apply List.map_congr_left
      intro k hk
      have hklt : (k : ℤ) < (regionState it ms seeds).trial := by
        rw [htr]
        have := List.mem_range.mp hk
        omega
      simp only [Nat.zero_add, regionResults, if_pos hklt, trialPts]
    rw [hmapeq]
    show (0 : ℚ) + _ = _
    rw [zero_add]
  · intro c h0
    have h0e : (escLoopGo c it 0 pz).1 = 0 := h0
    rw [trialPts, h0e, List.take_zero]

/-- C8, witness: the theorem applied at `image_size = 2`, cap 1,
`max_samples = 5` and the constant seed 0 (which never escapes, so the
histogram stays zero at pixel `(0, 0)` and the sum counts no hits). -/
theorem C8_witness :
    (5 : ℤ) ≤ 5 ∧
    ((renderRegion 2 1 5 (fun _ => pz)).2 0 0 =
      regionWeight 1 5 (fun _ => pz) *
        (((List.range (regionState 1 5 (fun _ => pz)).samples.toNat).map
          (fun t => (hits 2 0 0 (trialPts 1 ((fun _ => pz) t)) : ℚ))).sum) ∧
    (∀ c : Pt, escapeTime 1 c = 0 → trialPts 1 c = [])) :=
  ⟨by norm_num, C8_weights 2 1 5 (fun _ => pz) (by norm_num) 0 0⟩
